import Mathlib

/-!
Shallow embedding of the WED-Make experiment runtime (py_runtime.py and
wedmakefile_parser.py) and proofs about its specification claims.

Python strings are embedded as `List Char`. Python regular-expression
matching of the four fixed clause patterns is embedded as deterministic
matchers: in each pattern the identifier group is followed by a character
that cannot belong to the identifier character class, and every `\s*` /
`\s+` run is followed by a non-whitespace literal, so greedy matching with
backtracking coincides with maximal-run scanning. `\s` is modelled by its
ASCII fragment.
-/

namespace WedMake

abbrev Str := List Char

/-- ASCII fragment of Python's `\s` character class. -/
def isPyWs (c : Char) : Bool :=
  c = ' ' || c = '\t' || c = '\n' || c = '\r' || c = '\x0b' || c = '\x0c'

/-- Character class `[a-zA-Z]` of the grammar. -/
def isAlphaChar (c : Char) : Bool :=
  ('a' ≤ c && c ≤ 'z') || ('A' ≤ c && c ≤ 'Z')

/-- Character class `[a-zA-Z0-9]`. -/
def isAlnumChar (c : Char) : Bool :=
  isAlphaChar c || ('0' ≤ c && c ≤ '9')

/-- Character class `[_a-zA-Z0-9]` of identifier bodies. -/
def isIdChar (c : Char) : Bool :=
  isAlnumChar c || c = '_'

/-- Full match of `Variable.IDENTIFIER`:
`[a-zA-Z][_a-zA-Z0-9]{0,62}[a-zA-Z0-9]|[a-zA-Z]` (wedmakefile_parser.py). -/
def isValidIdentifier (s : Str) : Bool :=
  match s with
  | [] => false
  | c :: rest =>
    isAlphaChar c &&
      (match rest.reverse with
       | [] => true
       | lastc :: midrev =>
         isAlnumChar lastc && rest.length ≤ 63 && midrev.all isIdChar)

/-- Full match of `Variable.VALUE`: `.{0,2048}` (no newline, at most 2048 chars). -/
def isValidValue (s : Str) : Bool :=
  s.length ≤ 2048 && s.all (· ≠ '\n')

/-- Index of the last `'_'` in the identifier, as computed by Python `str.rfind`
(`none` models the `-1` result, excluded by the `'_' in identifier` test). -/
def rfindU : Str → Option Nat
  | [] => none
  | c :: t =>
    match rfindU t with
    | some i => some (i + 1)
    | none => if c = '_' then some 0 else none

/-- `Variable.namespace` (wedmakefile_parser.py line 110):
`identifier[:identifier.rfind('_')] if '_' in identifier else ""`. -/
def namespaceOf (s : Str) : Str :=
  match rfindU s with
  | some i => s.take i
  | none => []

/-- Full match of the quoted-literal alternative `('VAL'|"VAL")` appearing in the
equality and inequality patterns; returns the literal with the quotes stripped,
as the source computes `match.groups()[1][1:-1]`. -/
def matchQuoted (s : Str) : Option Str :=
  match s with
  | [] => none
  | c :: rest =>
    if c = '\'' ∨ c = '"' then
      match rest.getLast? with
      | some c2 =>
        if c2 = c ∧ isValidValue rest.dropLast then some rest.dropLast else none
      | none => none
    else none

/-- Full match of the bracket group `(\[.+\])` of the membership patterns;
returns the whole group (brackets included), as captured by `groups()[1]`. -/
def matchBracket (s : Str) : Option Str :=
  match s with
  | '[' :: rest =>
    match rest.getLast? with
    | some ']' =>
      if rest.dropLast ≠ [] ∧ rest.dropLast.all (· ≠ '\n') then some s else none
    | _ => none
  | _ => none

/-- Common head `\$(IDENTIFIER)` of the four clause patterns: a `$`, then the
maximal identifier-character run (the character after the group is never an
identifier character in any of the four patterns), which must be a valid
identifier. Returns the group and the remainder. -/
def matchDollarId (s : Str) : Option (Str × Str) :=
  match s with
  | '$' :: rest =>
    if isValidIdentifier (rest.takeWhile isIdChar) then
      some (rest.takeWhile isIdChar, rest.dropWhile isIdChar)
    else none
  | _ => none

/-- Tail `\s*=\s*('VAL'|"VAL")` of `Dependency.EQUALITY_CLAUSE`. -/
def matchEqRhs (r : Str) : Option Str :=
  match r.dropWhile isPyWs with
  | '=' :: r2 => matchQuoted (r2.dropWhile isPyWs)
  | _ => none

/-- Tail `\s*!=\s*('VAL'|"VAL")` of `Dependency.INEQUALITY_CLAUSE`. -/
def matchIneqRhs (r : Str) : Option Str :=
  match r.dropWhile isPyWs with
  | '!' :: '=' :: r2 => matchQuoted (r2.dropWhile isPyWs)
  | _ => none

/-- Whether the string starts with a whitespace character (`\s+` requires a
first whitespace character; the rest of the run is consumed maximally). -/
def headIsWs (r : Str) : Bool :=
  match r with
  | [] => false
  | c :: _ => isPyWs c

/-- Tail `\s+in\s+(\[.+\])` of `Dependency.MEMBERSHIP_CLAUSE`. -/
def matchMemRhs (r : Str) : Option Str :=
  if headIsWs r then
    match r.dropWhile isPyWs with
    | 'i' :: 'n' :: r3 =>
      if headIsWs r3 then matchBracket (r3.dropWhile isPyWs) else none
    | _ => none
  else none

/-- Tail `\s+not\s+in\s+(\[.+\])` of `Dependency.NOMEMBERSHIP_CLAUSE`. -/
def matchNoMemRhs (r : Str) : Option Str :=
  if headIsWs r then
    match r.dropWhile isPyWs with
    | 'n' :: 'o' :: 't' :: r3 =>
      if headIsWs r3 then
        match r3.dropWhile isPyWs with
        | 'i' :: 'n' :: r4 =>
          if headIsWs r4 then matchBracket (r4.dropWhile isPyWs) else none
        | _ => none
      else none
    | _ => none
  else none

/-- `re.fullmatch(Dependency.EQUALITY_CLAUSE, clause)`, returning the two groups
(identifier, literal with quotes stripped). -/
def matchEquality (s : Str) : Option (Str × Str) :=
  (matchDollarId s).bind fun p => (matchEqRhs p.2).map fun lit => (p.1, lit)

/-- `re.fullmatch(Dependency.INEQUALITY_CLAUSE, clause)`. -/
def matchInequality (s : Str) : Option (Str × Str) :=
  (matchDollarId s).bind fun p => (matchIneqRhs p.2).map fun lit => (p.1, lit)

/-- `re.fullmatch(Dependency.MEMBERSHIP_CLAUSE, clause)`, returning
(identifier, bracket group). -/
def matchMembership (s : Str) : Option (Str × Str) :=
  (matchDollarId s).bind fun p => (matchMemRhs p.2).map fun grp => (p.1, grp)

/-- `re.fullmatch(Dependency.NOMEMBERSHIP_CLAUSE, clause)`. -/
def matchNoMembership (s : Str) : Option (Str × Str) :=
  (matchDollarId s).bind fun p => (matchNoMemRhs p.2).map fun grp => (p.1, grp)

/-- Leading quoted string literal of a Python list display: `'lit'` or `"lit"`.
Returns the literal and the remainder. Escape sequences are outside the model
(a backslash or a newline makes the parse fail). -/
def parseQuotedItem (s : Str) : Option (Str × Str) :=
  match s with
  | [] => none
  | q :: rest =>
    if q = '\'' ∨ q = '"' then
      let lit := rest.takeWhile fun c => ¬(c = q ∨ c = '\\' ∨ c = '\n')
      match rest.dropWhile (fun c => ¬(c = q ∨ c = '\\' ∨ c = '\n')) with
      | c :: r2 => if c = q then some (lit, r2) else none
      | [] => none
    else none

/-- Items of a Python list display, after the opening bracket or a comma:
`ws* (']' | item ws* (']' | ',' …))`; the closing bracket must end the input. -/
def parseListRest (fuel : Nat) (s : Str) : Option (List Str) :=
  match fuel with
  | 0 => none
  | fuel + 1 =>
    match s.dropWhile isPyWs with
    | [']'] => some []
    | s1 =>
      match parseQuotedItem s1 with
      | none => none
      | some (lit, r) =>
        match r.dropWhile isPyWs with
        | [']'] => some [lit]
        | ',' :: r2 => (parseListRest fuel r2).map fun l => lit :: l
        | _ => none

/-- Modelled from the source's `eval(variable_values)` (py_runtime.py lines 180
and 190) applied to the captured bracket group, restricted to Python
list-of-string literals without escape sequences or implicit concatenation:
`some` is the evaluated list, `none` models a raised exception. -/
def pyEvalStrList (s : Str) : Option (List Str) :=
  match s with
  | '[' :: rest => parseListRest (rest.length + 1) rest
  | _ => none

/-- First-match lookup in an association list (embeds Python `dict` lookup;
`PyState` keeps the most recent binding first). -/
def lookupA (k : Str) : List (Str × Str) → Option Str
  | [] => none
  | (k', v) :: t => if k = k' then some v else lookupA k t

/-- `PyExperimentInstanceState` (py_runtime.py lines 14-134): a dict from
variable identifier to value together with the `_permission` dict. Both are
kept as association lists whose first matching entry is the current binding. -/
structure PyState where
  values : List (Str × Str)
  permission : List (Str × Str)
deriving DecidableEq

/-- `ei_state.get(identifier, "")` as used by `PyDependency.is_satisfied_by`. -/
def PyState.get (st : PyState) (k : Str) : Str :=
  (lookupA k st.values).getD []

/-- `PyExperimentInstanceState.is_readonly` (line 103):
`self._permission.get(variable_identifier, "rw") == "ro"`. -/
def PyState.isReadonly (st : PyState) (k : Str) : Bool :=
  (lookupA k st.permission).getD ('r' :: ['w']) = ['r', 'o']

/-- `PyExperimentInstanceState.update` (lines 112-119): `dict.update` on the
values and on the permissions; the other state's bindings take precedence.
No permission is consulted. -/
def PyState.update (st other : PyState) : PyState :=
  ⟨other.values ++ st.values, other.permission ++ st.permission⟩

/-- `PyDependency.is_satisfied_by` (py_runtime.py lines 147-192): the clause is
matched against the four patterns in order; `none` models both the final
fall-through (Python returns `None`) and a raised `eval` exception. -/
def isSatisfiedBy (st : PyState) (clause : Str) : Option Bool :=
  match matchEquality clause with
  | some (id, lit) => some (decide (st.get id = lit))
  | none =>
    match matchInequality clause with
    | some (id, lit) => some (decide (¬ st.get id = lit))
    | none =>
      match matchMembership clause with
      | some (id, grp) =>
        (pyEvalStrList grp).map fun lits => decide (st.get id ∈ lits)
      | none =>
        match matchNoMembership clause with
        | some (id, grp) =>
          (pyEvalStrList grp).map fun lits => decide (¬ st.get id ∈ lits)
        | none => none

/-- Python truthiness of the value returned by `is_satisfied_by` as used in
`if not PyDependency(dependency).is_satisfied_by(...)`: `None` is falsy. -/
def truthy : Option Bool → Bool
  | some b => b
  | none => false

/-- Satisfaction of a whole guard (the conjunction computed by the dependency
loops of py_runtime.py): every dependency clause is truthy-satisfied. -/
def guardIsSatisfiedBy (st : PyState) (deps : List Str) : Bool :=
  deps.all fun d => truthy (isSatisfiedBy st d)

/-- The flag loop of `is_in_final_state` (lines 322-325), also the first loop of
`is_in_inconsistent_state` (lines 343-346): start at `True`, clear on any
unsatisfied dependency. -/
def finalFlagLoop (st : PyState) (deps : List Str) : Bool :=
  deps.foldl (fun flag d => if !(truthy (isSatisfiedBy st d)) then false else flag) true

/-- The task loop of `is_in_inconsistent_state` (lines 347-353): the for/else
sets `trigger_task` when some task's dependencies are all satisfied. -/
def taskTriggerLoop (st : PyState) (taskGuards : List (List Str)) : Bool :=
  taskGuards.foldl
    (fun trigger g => if g.all (fun d => truthy (isSatisfiedBy st d)) then true else trigger)
    false

/-- `PyExperimentInstance.is_in_final_state` (lines 310-328) on the branch where
every variable lock was acquired. -/
def isInFinalStateLocked (st : PyState) (finalGuard : List Str) : Bool :=
  finalFlagLoop st finalGuard

/-- `PyExperimentInstance.is_in_inconsistent_state` (lines 330-356) on the
branch where every variable lock was acquired:
`return not is_in_final_state and not trigger_task`. -/
def isInInconsistentStateLocked (st : PyState) (finalGuard : List Str)
    (taskGuards : List (List Str)) : Bool :=
  !(finalFlagLoop st finalGuard) && !(taskTriggerLoop st taskGuards)

/-- The error kinds raised or recorded by the runtime and the parser. -/
inductive PyExc where
  | syntaxError
  | unsatisfiedInitialGuard (clause : Str)
  | undeclaredDependency (varId : Str) (task : Str)
  | taskExecutionError (task : Str)
  | inconsistentState
deriving DecidableEq

/-- The initial-guard loop of `PyExperimentInstance.__init__` (lines 240-247):
raise `UnsatisfiedInitialGuard` naming the clause of the first unsatisfied
dependency, otherwise fall through (instance created). -/
def checkInitialGuard (st : PyState) (deps : List Str) : Except PyExc Unit :=
  match deps with
  | [] => .ok ()
  | d :: rest =>
    if !(truthy (isSatisfiedBy st d)) then .error (.unsatisfiedInitialGuard d)
    else checkInitialGuard st rest

/-- The for/else loop of `PyExperimentInstance.execute_task` over the delta
(lines 464-475): first delta variable not declared among the task guard's
variables; `Variable.__eq__` compares identifiers, so the `not in` test is
identifier membership. -/
def firstUndeclared (onVars : List Str) : List (Str × Str) → Option Str
  | [] => none
  | (k, _) :: rest => if k ∈ onVars then firstUndeclared onVars rest else some k

/-- The delta-validation and merge phase of `execute_task` (lines 464-483),
entered after the task's script produced the delta `other_state`: on an
undeclared variable, append `UndeclaredDependency` to the exception list,
leave the state unchanged and return `False`; otherwise
`self._state.update(other_state)` and return `True`. -/
def mergeDeltaPhase (taskName : Str) (onVars : List Str) (st delta : PyState)
    (excs : List PyExc) : PyState × List PyExc × Bool :=
  match firstUndeclared onVars delta.values with
  | some k => (st, excs ++ [.undeclaredDependency k taskName], false)
  | none => (st.update delta, excs, true)

/-- `Dependency.validate_clause` (wedmakefile_parser.py lines 176-187): the
clause must fully match one of the four patterns, otherwise `SyntaxError`.
`Dependency.__init__` stores the validated clause. -/
def dependencyInit (c : Str) : Except PyExc Str :=
  if (matchEquality c).isSome || (matchInequality c).isSome
      || (matchMembership c).isSome || (matchNoMembership c).isSome
  then .ok c else .error .syntaxError

/-- The message of the `SyntaxError` raised by `Dependency.validate_clause`
(wedmakefile_parser.py line 187): the constant string
`Invalid dependency clause.` — the offending clause is not part of it. -/
def invalidClauseMsg : Str := "Invalid dependency clause.".data

/-- `Dependency.validate_clause` at the level of the raised error message:
same acceptance condition as `dependencyInit`, with the `SyntaxError`'s
constant message as the error payload. -/
def validateClauseExc (c : Str) : Except Str Str :=
  if (matchEquality c).isSome || (matchInequality c).isSome
      || (matchMembership c).isSome || (matchNoMembership c).isSome
  then .ok c else .error invalidClauseMsg

/-- `Guard.validate_dependencies` (lines 230-239): at most 256 dependencies,
otherwise `SyntaxError`. No lower bound is checked. -/
def validateDependencies (ds : List Str) : Except PyExc (List Str) :=
  if ds.length ≤ 256 then .ok ds else .error .syntaxError

/-- `Guard.__init__` (lines 241-249) on an explicit clause list: build each
`Dependency` left to right (first invalid clause raises), then validate the
count. -/
def guardInit (clauses : List Str) : Except PyExc (List Str) :=
  (clauses.mapM dependencyInit).bind validateDependencies

/-- The normalisation `clauses if isinstance(clauses, list) else [clauses]` of
`Guard.__init__`: a scalar clause becomes a one-element list. -/
def normalizeClauses : Sum Str (List Str) → List Str
  | .inl c => [c]
  | .inr l => l

/-- `Guard.__init__` on either a scalar clause or a clause list. -/
def guardInitYaml (x : Sum Str (List Str)) : Except PyExc (List Str) :=
  guardInit (normalizeClauses x)

/-- Python `str.strip()` (ASCII-whitespace fragment). -/
def pyStrip (s : Str) : Str :=
  ((s.dropWhile isPyWs).reverse.dropWhile isPyWs).reverse

/-- `clause.split()[0]`: the first whitespace-separated token. -/
def splitHeadToken (s : Str) : Str :=
  (s.dropWhile isPyWs).takeWhile fun c => !isPyWs c

/-- `Dependency.on_variable` (wedmakefile_parser.py lines 200-209): extract the
identifier of the dependent variable from the stored clause
(`split('=')[0].strip()[1:]`, `split('!')[0].strip()[1:]` or `split()[0][1:]`
depending on the clause form); `none` models the fall-through `None`. -/
def onVariable (c : Str) : Option Str :=
  if (matchEquality c).isSome then some ((pyStrip (c.takeWhile (· ≠ '='))).drop 1)
  else if (matchInequality c).isSome then some ((pyStrip (c.takeWhile (· ≠ '!'))).drop 1)
  else if (matchMembership c).isSome then some ((splitHeadToken c).drop 1)
  else if (matchNoMembership c).isSome then some ((splitHeadToken c).drop 1)
  else none

/-- Lexicographic string comparison, as Python's `<=` on identifiers
(`Variable.__lt__` compares the identifier strings). -/
def strLe : Str → Str → Bool
  | [], _ => true
  | _ :: _, [] => false
  | a :: as, b :: bs => if a < b then true else if a = b then strLe as bs else false

/-- The identifier ordering used for every variable list the runtime iterates. -/
def strLeRel (a b : Str) : Prop := strLe a b = true

instance : DecidableRel strLeRel := fun a b => by
  unfold strLeRel; infer_instance

/-- `Guard.on_variables` (lines 255-265) with no namespace filter:
`sorted(set(dependency.on_variable() for dependency in deps))`; Python's
`sorted` on `Variable` uses `Variable.__lt__`, lexicographic on identifier. -/
def onVariables (deps : List Str) : List Str :=
  List.insertionSort strLeRel (deps.filterMap onVariable).dedup

/-- `wedmakefile_parser.Task`: name, guard clause list, bash script. -/
structure WedTask where
  name : Str
  guard : List Str
  bash : Str

/-- `wedmakefile_parser.WEDMakefile`: initial guard, final guard and tasks. -/
structure WedMakefileData where
  initialGuard : List Str
  finalGuard : List Str
  tasks : List WedTask

/-- `WEDMakefile.variables` (lines 374-385) with no namespace filter: the
sorted set of the variables of the initial guard, the final guard and every
task guard. -/
def wedVariables (w : WedMakefileData) : List Str :=
  List.insertionSort strLeRel
    (onVariables w.initialGuard ++ onVariables w.finalGuard ++
      (w.tasks.map fun t => onVariables t.guard).flatten).dedup

/-- A lock table: `T v = true` iff the per-variable lock of `v` is currently
held. `threading.Lock.acquire(blocking=False)` succeeds exactly on a free
lock. -/
def lockSet (T : Str → Bool) (v : Str) (b : Bool) : Str → Bool :=
  fun x => if x = v then b else T x

/-- The `while j < i` release loop run on a failed acquisition (py_runtime.py
lines 317-320, 338-341, 368-371, 394-397): release the locks acquired so far,
in order. -/
def releaseUpTo (acquired : List Str) (T : Str → Bool) : Str → Bool :=
  acquired.foldl (fun T' v => lockSet T' v false) T

/-- The non-blocking multi-lock acquisition loop shared by `is_in_final_state`,
`is_in_inconsistent_state`, `is_ready_to_execute_task` and `execute_task`:
acquire each variable's lock in the order of the given list; on the first
already-held lock, release everything acquired so far and return `False`
together with the resulting table. -/
def tryLockAllAux : List Str → List Str → (Str → Bool) → Bool × (Str → Bool)
  | [], _, T => (true, T)
  | v :: rest, acquired, T =>
    if T v then (false, releaseUpTo acquired T)
    else tryLockAllAux rest (acquired ++ [v]) (lockSet T v true)

/-- Entry point of the acquisition loop (`i` starts at 0, nothing acquired). -/
def tryLockAll (vars : List Str) (T : Str → Bool) : Bool × (Str → Bool) :=
  tryLockAllAux vars [] T

/-- Global scheduler state for the concurrency model: the owner (worker index)
of each variable lock, and the set of task bodies currently executing, each
recorded as (worker, the task guard's variable identifiers). -/
structure SchedState where
  owner : Str → Option Nat
  running : List (Nat × List Str)

/-- Interleaving semantics of `execute_task`'s locking (py_runtime.py lines
391-400 and 481-482). The whole acquisition loop runs under the class-wide
`_ei_lock`, so a successful acquisition of all of a task's variable locks is
atomic; a failed one restores the table (see the `tryLockAll` frame theorem)
and the body does not run. `start` fires a task body on a worker not already
running one, `finish` ends it and releases its locks. -/
inductive SchedStep : SchedState → SchedState → Prop
  | start (s : SchedState) (w : Nat) (vars : List Str)
      (hw : ∀ e ∈ s.running, e.1 ≠ w)
      (hfree : ∀ v ∈ vars, s.owner v = none) :
      SchedStep s
        ⟨fun x => if x ∈ vars then some w else s.owner x, (w, vars) :: s.running⟩
  | finish (s : SchedState) (w : Nat) (vars : List Str)
      (hmem : (w, vars) ∈ s.running) :
      SchedStep s
        ⟨fun x => if x ∈ vars then none else s.owner x,
         s.running.filter fun e => e.1 ≠ w⟩

/-- States reachable from the idle instance (no lock held, no body running). -/
inductive SchedReach : SchedState → Prop
  | init : SchedReach ⟨fun _ => none, []⟩
  | step {s s' : SchedState} : SchedReach s → SchedStep s s' → SchedReach s'

/-- A run of whitespace characters (a match of `\s*`). -/
def WsRun (w : Str) : Prop := ∀ c ∈ w, isPyWs c = true

/-- A single or double quote character. -/
def QuoteChar (q : Char) : Prop := q = '\'' ∨ q = '"'

/-- Content admissible inside the bracket group `(\[.+\])`: nonempty, without
newlines. -/
def InnerOk (inner : Str) : Prop := inner ≠ [] ∧ ∀ c ∈ inner, c ≠ '\n'

/-- The language of `Dependency.EQUALITY_CLAUSE`, written as an explicit
decomposition: `$`, identifier, optional whitespace, `=`, optional whitespace,
then a literal in matching quotes. -/
def EqualityShape (s : Str) : Prop :=
  ∃ id w1 w2 q lit, isValidIdentifier id = true ∧ WsRun w1 ∧ WsRun w2 ∧
    QuoteChar q ∧ isValidValue lit = true ∧
    s = '$' :: (id ++ w1 ++ '=' :: (w2 ++ q :: (lit ++ [q])))

/-- The language of `Dependency.INEQUALITY_CLAUSE`. -/
def InequalityShape (s : Str) : Prop :=
  ∃ id w1 w2 q lit, isValidIdentifier id = true ∧ WsRun w1 ∧ WsRun w2 ∧
    QuoteChar q ∧ isValidValue lit = true ∧
    s = '$' :: (id ++ w1 ++ '!' :: '=' :: (w2 ++ q :: (lit ++ [q])))

/-- The language of `Dependency.MEMBERSHIP_CLAUSE`: the bracketed right-hand
side is any nonempty newline-free character sequence — quoting of the list
elements is not part of the pattern. -/
def MembershipShape (s : Str) : Prop :=
  ∃ id w1 w2 inner, isValidIdentifier id = true ∧ WsRun w1 ∧ w1 ≠ [] ∧
    WsRun w2 ∧ w2 ≠ [] ∧ InnerOk inner ∧
    s = '$' :: (id ++ w1 ++ 'i' :: 'n' :: (w2 ++ '[' :: (inner ++ [']'])))

/-- The language of `Dependency.NOMEMBERSHIP_CLAUSE`. -/
def NoMembershipShape (s : Str) : Prop :=
  ∃ id w1 w2 w3 inner, isValidIdentifier id = true ∧ WsRun w1 ∧ w1 ≠ [] ∧
    WsRun w2 ∧ w2 ≠ [] ∧ WsRun w3 ∧ w3 ≠ [] ∧ InnerOk inner ∧
    s = '$' :: (id ++ w1 ++ 'n' :: 'o' :: 't' ::
      (w2 ++ 'i' :: 'n' :: (w3 ++ '[' :: (inner ++ [']']))))

/-! ### General list helpers -/

theorem takeWhile_append_all {p : Char → Bool} {a : Str} (b : Str)
    (h : ∀ c ∈ a, p c = true) : (a ++ b).takeWhile p = a ++ b.takeWhile p := by
  induction a with
  | nil => simp
  | cons c t ih =>
    have hc := h c (by simp)
    have ht : ∀ x ∈ t, p x = true := fun x hx => h x (by simp [hx])
    simp [List.takeWhile_cons, hc, ih ht]

theorem dropWhile_append_all {p : Char → Bool} {a : Str} (b : Str)
    (h : ∀ c ∈ a, p c = true) : (a ++ b).dropWhile p = b.dropWhile p := by
  induction a with
  | nil => simp
  | cons c t ih =>
    have hc := h c (by simp)
    have ht : ∀ x ∈ t, p x = true := fun x hx => h x (by simp [hx])
    simp [List.dropWhile_cons, hc, ih ht]

theorem head_dropWhile_false {p : Char → Bool} :
    ∀ {l : Str} {c : Char}, (l.dropWhile p).head? = some c → p c = false := by
  intro l
  induction l with
  | nil => intro c h; simp [List.dropWhile] at h
  | cons a t ih =>
    intro c h
    rw [List.dropWhile_cons] at h
    by_cases hp : p a = true
    · rw [if_pos hp] at h
      exact ih h
    · rw [if_neg hp] at h
      simp only [List.head?_cons, Option.some.injEq] at h
      subst h
      simpa using hp

theorem eq_dropLast_append_getLast {l : Str} {c : Char} (h : l.getLast? = some c) :
    l = l.dropLast ++ [c] := by
  cases l with
  | nil => simp at h
  | cons a t =>
    have hne : a :: t ≠ [] := by simp
    rw [List.getLast?_eq_getLast _ hne] at h
    simp only [Option.some.injEq] at h
    rw [← h]
    exact (List.dropLast_append_getLast hne).symm

/-! ### C9: the namespace function -/

theorem rfindU_eq_none {s : Str} : rfindU s = none ↔ '_' ∉ s := by
  induction s with
  | nil => simp [rfindU]
  | cons c t ih =>
    rw [rfindU]
    cases h : rfindU t with
    | some i =>
      have : '_' ∈ t := by
        by_contra hm
        rw [ih.mpr hm] at h
        exact Option.noConfusion h
      simp [this]
    | none =>
      have ht : '_' ∉ t := ih.mp h
      by_cases hc : c = '_'
      · simp [hc]
      · rw [if_neg hc]
        simp only [List.mem_cons, not_or]
        exact iff_of_true trivial ⟨fun he => hc he.symm, ht⟩

theorem rfindU_last {pre post : Str} (h : '_' ∉ post) :
    rfindU (pre ++ '_' :: post) = some pre.length := by
  induction pre with
  | nil =>
    simp only [List.nil_append, rfindU, rfindU_eq_none.mpr h, List.length_nil]
    rfl
  | cons c t ih => simp [rfindU, ih]

/-- C9: for a valid variable identifier, `namespace` returns the prefix of the
identifier up to (excluding) its last `'_'` when it contains one, and the
empty string otherwise; in particular `WEB_HTTPD_VERSION ↦ WEB_HTTPD` and
`SSHKEY ↦ ""`. -/
theorem claim9_namespace_of_identifier :
    (∀ pre post : Str, '_' ∉ post → namespaceOf (pre ++ '_' :: post) = pre) ∧
    (∀ s : Str, '_' ∉ s → namespaceOf s = []) ∧
    namespaceOf ("WEB_HTTPD_VERSION".data) = "WEB_HTTPD".data ∧
    namespaceOf ("SSHKEY".data) = [] := by
  refine ⟨fun pre post h => ?_, fun s h => ?_, by decide, by decide⟩
  · rw [namespaceOf, rfindU_last h]
    simp [List.take_left]
  · rw [namespaceOf, rfindU_eq_none.mpr h]

/-- Witness for C9 at a concrete identifier with an underscore. -/
theorem claim9_witness : namespaceOf ("A_B".data) = "A".data := by
  have h := claim9_namespace_of_identifier.1 ("A".data) ("B".data) (by decide)
  exact h

/-! ### C4: instantiation and the initial guard -/

/-- C4: the initial-guard check of `PyExperimentInstance.__init__` succeeds
(the instance is created) iff the config-derived state satisfies every
dependency of the initial guard; otherwise it raises an
`UnsatisfiedInitialGuard` error naming the clause of an unsatisfied
dependency, and every raised error is of that kind. -/
theorem claim4_initial_guard (st : PyState) (deps : List Str) :
    (checkInitialGuard st deps = .ok () ↔ guardIsSatisfiedBy st deps = true) ∧
    (∀ c, checkInitialGuard st deps = .error (.unsatisfiedInitialGuard c) →
      c ∈ deps ∧ truthy (isSatisfiedBy st c) = false) ∧
    (∀ e, checkInitialGuard st deps = .error e →
      ∃ c, e = .unsatisfiedInitialGuard c) := by
  induction deps with
  | nil =>
    refine ⟨by simp [checkInitialGuard, guardIsSatisfiedBy],
      fun c h => by simp [checkInitialGuard] at h,
      fun e h => by simp [checkInitialGuard] at h⟩
  | cons d rest ih =>
    by_cases hd : truthy (isSatisfiedBy st d) = true
    · refine ⟨?_, ?_, ?_⟩
      · rw [show checkInitialGuard st (d :: rest) = checkInitialGuard st rest by
          simp [checkInitialGuard, hd]]
        rw [ih.1]
        simp [guardIsSatisfiedBy, hd]
      · intro c h
        rw [show checkInitialGuard st (d :: rest) = checkInitialGuard st rest by
          simp [checkInitialGuard, hd]] at h
        obtain ⟨hm, hs⟩ := ih.2.1 c h
        exact ⟨List.mem_cons_of_mem _ hm, hs⟩
      · intro e h
        rw [show checkInitialGuard st (d :: rest) = checkInitialGuard st rest by
          simp [checkInitialGuard, hd]] at h
        exact ih.2.2 e h
    · have hstep : checkInitialGuard st (d :: rest) =
          .error (.unsatisfiedInitialGuard d) := by
        simp [checkInitialGuard, hd]
      refine ⟨?_, ?_, ?_⟩
      · rw [hstep]
        simp only [Bool.not_eq_true] at hd
        simp [guardIsSatisfiedBy, hd]
      · intro c h
        rw [hstep] at h
        simp only [Except.error.injEq, PyExc.unsatisfiedInitialGuard.injEq] at h
        subst h
        exact ⟨List.mem_cons_self _ _, by simpa using hd⟩
      · intro e h
        rw [hstep] at h
        simp only [Except.error.injEq] at h
        exact ⟨d, h.symm⟩

/-- Witness for C4: an empty state does not satisfy `$A = "1"`, so
instantiation raises `UnsatisfiedInitialGuard` naming that clause. -/
theorem claim4_witness :
    ("$A = \"1\"".data ∈ ["$A = \"1\"".data] ∧
      truthy (isSatisfiedBy ⟨[], []⟩ ("$A = \"1\"".data)) = false) ∧
    (checkInitialGuard ⟨[], []⟩ ["$A = \"1\"".data] = .ok () ↔
      guardIsSatisfiedBy ⟨[], []⟩ ["$A = \"1\"".data] = true) := by
  refine ⟨(claim4_initial_guard ⟨[], []⟩ _).2.1 _ (by rfl),
    (claim4_initial_guard ⟨[], []⟩ _).1⟩

/-! ### C1: merging a delta ignores permissions -/

theorem lookupA_append (k : Str) (a b : List (Str × Str)) :
    lookupA k (a ++ b) = (lookupA k a).orElse (fun _ => lookupA k b) := by
  induction a with
  | nil => simp [lookupA]
  | cons p t ih =>
    by_cases hk : k = p.1
    · simp [lookupA, hk]
    · simp [lookupA, hk, ih]

/-- Counterexample for C1: a state holding `X = "1"` with permission `ro`, a
delta reassigning `X = "2"`; `PyExperimentInstanceState.update` overwrites the
`ro` binding and no error of any kind is produced (the claimed
`PermissionViolation` does not exist in the runtime). -/
theorem claim1_counterexample :
    PyState.isReadonly ⟨[(['X'], ['1'])], [(['X'], ['r', 'o'])]⟩ ['X'] = true ∧
    PyState.get
      (PyState.update ⟨[(['X'], ['1'])], [(['X'], ['r', 'o'])]⟩
        ⟨[(['X'], ['2'])], [(['X'], ['r', 'w'])]⟩) ['X'] = ['2'] ∧
    ¬ PyState.get
      (PyState.update ⟨[(['X'], ['1'])], [(['X'], ['r', 'o'])]⟩
        ⟨[(['X'], ['2'])], [(['X'], ['r', 'w'])]⟩) ['X'] =
      PyState.get ⟨[(['X'], ['1'])], [(['X'], ['r', 'o'])]⟩ ['X'] := by
  refine ⟨rfl, rfl, ?_⟩
  decide

/-- C1 (amended): `update` merges every binding of the delta into the state
unconditionally — including bindings whose current permission is `ro` — and
returns no error; bindings absent from the delta are unchanged. Permissions
are merged the same way. -/
theorem claim1_update_unconditional (st other : PyState) (k : Str) :
    (st.isReadonly k = true → ∀ v, lookupA k other.values = some v →
      lookupA k (st.update other).values = some v) ∧
    (∀ v, lookupA k other.values = some v →
      lookupA k (st.update other).values = some v) ∧
    (lookupA k other.values = none →
      lookupA k (st.update other).values = lookupA k st.values) ∧
    (∀ p, lookupA k other.permission = some p →
      lookupA k (st.update other).permission = some p) ∧
    (lookupA k other.permission = none →
      lookupA k (st.update other).permission = lookupA k st.permission) := by
  have hv := lookupA_append k other.values st.values
  have hp := lookupA_append k other.permission st.permission
  refine ⟨fun _ v h => ?_, fun v h => ?_, fun h => ?_, fun p h => ?_, fun h => ?_⟩
  · rw [PyState.update, hv, h]; rfl
  · rw [PyState.update, hv, h]; rfl
  · rw [PyState.update, hv, h]; rfl
  · rw [PyState.update, hp, h]; rfl
  · rw [PyState.update, hp, h]; rfl

/-- Witness for C1 (amended), at the counterexample's state and delta. -/
theorem claim1_witness :
    lookupA ['X']
      (PyState.update ⟨[(['X'], ['1'])], [(['X'], ['r', 'o'])]⟩
        ⟨[(['X'], ['2'])], [(['X'], ['r', 'w'])]⟩).values = some ['2'] := by
  exact (claim1_update_unconditional ⟨[(['X'], ['1'])], [(['X'], ['r', 'o'])]⟩
    ⟨[(['X'], ['2'])], [(['X'], ['r', 'w'])]⟩ ['X']).1 (by decide) ['2'] (by decide)

/-! ### C2: undeclared-dependency validation in execute_task -/

theorem firstUndeclared_eq_none {onVars : List Str} :
    ∀ {items : List (Str × Str)}, firstUndeclared onVars items = none ↔
      ∀ kv ∈ items, kv.1 ∈ onVars := by
  intro items
  induction items with
  | nil => simp [firstUndeclared]
  | cons p t ih =>
    rw [firstUndeclared]
    by_cases hp : p.1 ∈ onVars
    · rw [if_pos hp]
      simp only [List.mem_cons]
      constructor
      · intro h kv hkv
        rcases hkv with hkv | hkv
        · rw [hkv]; exact hp
        · exact ih.mp h kv hkv
      · intro h
        exact ih.mpr fun kv hkv => h kv (Or.inr hkv)
    · rw [if_neg hp]
      constructor
      · intro h; exact Option.noConfusion h
      · intro h
        exact absurd (h p (List.mem_cons_self _ _)) hp

theorem firstUndeclared_eq_some {onVars : List Str} :
    ∀ {items : List (Str × Str)} {k : Str}, firstUndeclared onVars items = some k →
      k ∉ onVars ∧ ∃ v, (k, v) ∈ items := by
  intro items
  induction items with
  | nil => intro k h; exact absurd h (by simp [firstUndeclared])
  | cons p t ih =>
    intro k h
    rw [firstUndeclared] at h
    by_cases hp : p.1 ∈ onVars
    · rw [if_pos hp] at h
      obtain ⟨hk, v, hv⟩ := ih h
      exact ⟨hk, v, List.mem_cons_of_mem _ hv⟩
    · rw [if_neg hp] at h
      simp only [Option.some.injEq] at h
      subst h
      exact ⟨hp, p.2, by simp⟩

/-- C2: if the delta produced by a task's script contains a variable that is
not among the task guard's variables, `execute_task` appends an
`UndeclaredDependency(variable, task)` error and the shared state is left
untouched (no part of the delta is merged) and `False` is returned; if every
delta variable is declared, the whole delta is merged via `update` and `True`
is returned. -/
theorem claim2_undeclared_dependency (tn : Str) (onVars : List Str)
    (st delta : PyState) (excs : List PyExc) :
    ((∀ kv ∈ delta.values, kv.1 ∈ onVars) →
      mergeDeltaPhase tn onVars st delta excs = (st.update delta, excs, true)) ∧
    ((∃ kv ∈ delta.values, kv.1 ∉ onVars) →
      ∃ k, k ∉ onVars ∧ (∃ v, (k, v) ∈ delta.values) ∧
        mergeDeltaPhase tn onVars st delta excs =
          (st, excs ++ [.undeclaredDependency k tn], false)) := by
  constructor
  · intro h
    rw [mergeDeltaPhase, firstUndeclared_eq_none.mpr h]
  · intro h
    cases hf : firstUndeclared onVars delta.values with
    | none =>
      obtain ⟨kv, hkv, hk⟩ := h
      exact absurd (firstUndeclared_eq_none.mp hf kv hkv) hk
    | some k =>
      obtain ⟨hk, v, hv⟩ := firstUndeclared_eq_some hf
      refine ⟨k, hk, ⟨v, hv⟩, ?_⟩
      rw [mergeDeltaPhase, hf]

/-- Witness for C2: a delta setting `B` under a task declared on `A` only. -/
theorem claim2_witness :
    ∃ k, k ∉ [['A']] ∧ (∃ v, (k, v) ∈ [(['B'], ['x'])]) ∧
      mergeDeltaPhase ['T'] [['A']] ⟨[], []⟩ ⟨[(['B'], ['x'])], []⟩ [] =
        (⟨[], []⟩, [] ++ [.undeclaredDependency k ['T']], false) := by
  exact (claim2_undeclared_dependency ['T'] [['A']] ⟨[], []⟩ ⟨[(['B'], ['x'])], []⟩ []).2
    ⟨(['B'], ['x']), by simp, by decide⟩

/-! ### C6: guard construction bounds -/

theorem mapM_dependencyInit_ok {clauses : List Str}
    (h : ∀ c ∈ clauses, dependencyInit c = .ok c) :
    clauses.mapM dependencyInit = .ok clauses := by
  induction clauses with
  | nil => rfl
  | cons c t ih =>
    rw [List.mapM_cons, h c (by simp), ih fun c hc => h c (by simp [hc])]
    rfl

/-- Counterexample for C6: `Guard([])` succeeds — the claimed lower bound of
one dependency is not enforced by `Guard.validate_dependencies`, which only
checks the upper bound of 256. -/
theorem claim6_counterexample : guardInit [] = .ok [] := by rfl

/-- C6 (amended): for a list of valid clauses, constructing a Guard raises
`SyntaxError` exactly when the list has more than 256 clauses; any list of at
most 256 valid clauses — including the empty list — is accepted, after a
scalar clause is normalised to a single-element list. The lower bound of one
dependency is not enforced. -/
theorem claim6_guard_bounds (clauses : List Str)
    (h : ∀ c ∈ clauses, dependencyInit c = .ok c) :
    (clauses.length ≤ 256 → guardInit clauses = .ok clauses) ∧
    (256 < clauses.length → guardInit clauses = .error .syntaxError) ∧
    (∀ c, normalizeClauses (.inl c) = [c]) := by
  refine ⟨fun hl => ?_, fun hl => ?_, fun c => rfl⟩
  · rw [guardInit, mapM_dependencyInit_ok h]
    show validateDependencies clauses = Except.ok clauses
    rw [validateDependencies, if_pos hl]
  · rw [guardInit, mapM_dependencyInit_ok h]
    show validateDependencies clauses = Except.error PyExc.syntaxError
    rw [validateDependencies, if_neg (Nat.not_le_of_lt hl)]

/-- Witness for C6 (amended): a one-clause guard is accepted. -/
theorem claim6_witness : guardInit ["$A = \"1\"".data] = .ok ["$A = \"1\"".data] := by
  exact (claim6_guard_bounds ["$A = \"1\"".data] (by intro c hc; simp at hc; rw [hc]; rfl)).1
    (by decide)

/-! ### C3: the inconsistent-state predicate -/

theorem finalFlagLoop_eq_all (st : PyState) (deps : List Str) :
    finalFlagLoop st deps = deps.all fun d => truthy (isSatisfiedBy st d) := by
  rw [finalFlagLoop]
  suffices h : ∀ (l : List Str) (b : Bool),
      l.foldl (fun flag d => if !(truthy (isSatisfiedBy st d)) then false else flag) b =
        (b && l.all fun d => truthy (isSatisfiedBy st d)) by
    rw [h deps true, Bool.true_and]
  intro l
  induction l with
  | nil => intro b; simp
  | cons d t ih =>
    intro b
    rw [List.foldl_cons, ih, List.all_cons]
    by_cases hd : truthy (isSatisfiedBy st d) = true
    · simp [hd]
    · simp only [Bool.not_eq_true] at hd
      simp [hd]

theorem taskTriggerLoop_eq_any (st : PyState) (gs : List (List Str)) :
    taskTriggerLoop st gs = gs.any fun g => g.all fun d => truthy (isSatisfiedBy st d) := by
  rw [taskTriggerLoop]
  suffices h : ∀ (l : List (List Str)) (b : Bool),
      l.foldl (fun trigger g =>
          if g.all (fun d => truthy (isSatisfiedBy st d)) then true else trigger) b =
        (b || l.any fun g => g.all fun d => truthy (isSatisfiedBy st d)) by
    rw [h gs false, Bool.false_or]
  intro l
  induction l with
  | nil => intro b; simp
  | cons g t ih =>
    intro b
    rw [List.foldl_cons, ih, List.any_cons]
    by_cases hg : (g.all fun d => truthy (isSatisfiedBy st d)) = true
    · simp [hg]
    · simp only [Bool.not_eq_true] at hg
      simp [hg, Bool.or_assoc]

/-- C3: with every variable lock acquired, `is_in_inconsistent_state` returns
`True` exactly when the final guard is not satisfied by the current state and
no task's guard is satisfied by it; moreover `is_in_final_state` (on the same
all-locks branch) computes exactly final-guard satisfaction, so inconsistency
implies `is_in_final_state` is `False`. -/
theorem claim3_inconsistent_state (st : PyState) (finalGuard : List Str)
    (taskGuards : List (List Str)) :
    (isInFinalStateLocked st finalGuard = guardIsSatisfiedBy st finalGuard) ∧
    (isInInconsistentStateLocked st finalGuard taskGuards = true ↔
      (guardIsSatisfiedBy st finalGuard = false ∧
        ∀ g ∈ taskGuards, guardIsSatisfiedBy st g = false)) := by
  have hfin : isInFinalStateLocked st finalGuard = guardIsSatisfiedBy st finalGuard := by
    rw [isInFinalStateLocked, finalFlagLoop_eq_all, guardIsSatisfiedBy]
  refine ⟨hfin, ?_⟩
  rw [isInInconsistentStateLocked, finalFlagLoop_eq_all, taskTriggerLoop_eq_any]
  rw [Bool.and_eq_true, Bool.not_eq_true', Bool.not_eq_true']
  rw [guardIsSatisfiedBy]
  constructor
  · rintro ⟨h1, h2⟩
    refine ⟨h1, fun g hg => ?_⟩
    rw [guardIsSatisfiedBy]
    by_contra hc
    rw [Bool.not_eq_false] at hc
    have : (taskGuards.any fun g => g.all fun d => truthy (isSatisfiedBy st d)) = true :=
      List.any_eq_true.mpr ⟨g, hg, hc⟩
    rw [this] at h2
    exact Bool.noConfusion h2
  · rintro ⟨h1, h2⟩
    refine ⟨h1, ?_⟩
    rw [Bool.eq_false_iff]
    intro hc
    obtain ⟨g, hg, hall⟩ := List.any_eq_true.mp hc
    have := h2 g hg
    rw [guardIsSatisfiedBy] at this
    rw [this] at hall
    exact Bool.noConfusion hall

/-- Witness for C3: the empty state, final guard `$A = "1"`, no tasks — the
final guard is unsatisfied and vacuously no task guard holds, so the instance
is in an inconsistent state. -/
theorem claim3_witness :
    isInInconsistentStateLocked ⟨[], []⟩ ["$A = \"1\"".data] [] = true := by
  exact (claim3_inconsistent_state ⟨[], []⟩ ["$A = \"1\"".data] []).2.mpr
    ⟨by decide, by simp⟩

/-! ### C8: lock acquisition order and the failure frame -/

theorem strLe_total (a b : Str) : strLe a b = true ∨ strLe b a = true := by
  induction a generalizing b with
  | nil => left; rfl
  | cons x xs ih =>
    cases b with
    | nil => right; rfl
    | cons y ys =>
      rcases lt_trichotomy x y with h | h | h
      · left; simp [strLe, h]
      · subst h
        rcases ih ys with h' | h'
        · left; simp [strLe, h']
        · right; simp [strLe, h']
      · right; simp [strLe, h]

theorem strLe_trans {a b c : Str} (hab : strLe a b = true) (hbc : strLe b c = true) :
    strLe a c = true := by
  induction a generalizing b c with
  | nil => rfl
  | cons x xs ih =>
    cases b with
    | nil => exact absurd hab (by simp [strLe])
    | cons y ys =>
      cases c with
      | nil => exact absurd hbc (by simp [strLe])
      | cons z zs =>
        rw [strLe] at hab hbc ⊢
        by_cases hxy : x < y
        · by_cases hyz : y < z
          · rw [if_pos (lt_trans hxy hyz)]
          · rw [if_neg hyz] at hbc
            by_cases hyz' : y = z
            · subst hyz'; rw [if_pos hxy]
            · rw [if_neg hyz'] at hbc; exact Bool.noConfusion hbc
        · rw [if_neg hxy] at hab
          by_cases hxy' : x = y
          · subst hxy'
            rw [if_pos rfl] at hab
            by_cases hxz : x < z
            · rw [if_pos hxz]
            · rw [if_neg hxz] at hbc ⊢
              by_cases hxz' : x = z
              · rw [if_pos hxz'] at hbc ⊢
                exact ih hab hbc
              · rw [if_neg hxz'] at hbc; exact Bool.noConfusion hbc
          · rw [if_neg hxy'] at hab; exact Bool.noConfusion hab

instance : IsTotal Str strLeRel := ⟨strLe_total⟩

instance : IsTrans Str strLeRel := ⟨fun _ _ _ => strLe_trans⟩

theorem releaseUpTo_eval (acquired : List Str) :
    ∀ (T : Str → Bool) (x : Str),
      releaseUpTo acquired T x = if x ∈ acquired then false else T x := by
  induction acquired with
  | nil => intro T x; simp [releaseUpTo]
  | cons v t ih =>
    intro T x
    rw [show releaseUpTo (v :: t) T = releaseUpTo t (lockSet T v false) from rfl, ih]
    by_cases hx : x ∈ t
    · simp [hx]
    · by_cases hv : x = v
      · simp [hx, hv, lockSet]
      · simp [hx, hv, lockSet]

theorem tryLockAllAux_frame :
    ∀ (todo acquired : List Str) (T0 T : Str → Bool),
      (∀ x, T x = if x ∈ acquired then true else T0 x) →
      (∀ x ∈ acquired, T0 x = false) →
      (tryLockAllAux todo acquired T).1 = false →
      ∀ x, (tryLockAllAux todo acquired T).2 x = T0 x := by
  intro todo
  induction todo with
  | nil =>
    intro acquired T0 T _ _ hfail
    exact absurd hfail (by simp [tryLockAllAux])
  | cons v rest ih =>
    intro acquired T0 T hT hacq hfail x
    rw [tryLockAllAux] at hfail ⊢
    by_cases hv : T v = true
    · rw [if_pos hv]
      show releaseUpTo acquired T x = T0 x
      rw [releaseUpTo_eval, hT x]
      by_cases hx : x ∈ acquired
      · simp [hx, (hacq x hx).symm]
      · simp [hx]
    · rw [if_neg hv] at hfail ⊢
      have hv' : T0 v = false := by
        have := hT v
        by_cases hvm : v ∈ acquired
        · rw [if_pos hvm] at this
          exact absurd this hv
        · rw [if_neg hvm] at this
          rw [← this]
          exact Bool.not_eq_true _ ▸ (by simpa using hv)
      refine ih (acquired ++ [v]) T0 (lockSet T v true) ?_ ?_ hfail x
      · intro y
        rw [lockSet]
        by_cases hy : y = v
        · simp [hy]
        · rw [if_neg hy, hT y]
          by_cases hym : y ∈ acquired
          · simp [hym]
          · simp [hym, hy]
      · intro y hy
        rcases List.mem_append.mp hy with hy | hy
        · exact hacq y hy
        · simp only [List.mem_singleton] at hy
          rw [hy]; exact hv'

/-- C8: every non-blocking multi-lock acquisition loop of the runtime iterates
a lexicographically sorted variable list — `Guard.on_variables` (used by
`is_ready_to_execute_task` and `execute_task`) and `WEDMakefile.variables`
(used by `is_in_final_state` and `is_in_inconsistent_state`) are sorted by
identifier — and on any failed single acquisition the loop releases every
lock it had acquired, returns `False`, and leaves the whole lock table
exactly as it was before the attempt. -/
theorem claim8_lock_protocol :
    (∀ deps : List Str, (onVariables deps).Sorted strLeRel) ∧
    (∀ w : WedMakefileData, (wedVariables w).Sorted strLeRel) ∧
    (∀ (vars : List Str) (T : Str → Bool), (tryLockAll vars T).1 = false →
      ∀ x, (tryLockAll vars T).2 x = T x) := by
  refine ⟨fun deps => ?_, fun w => ?_, fun vars T hfail x => ?_⟩
  · exact List.sorted_insertionSort strLeRel _
  · exact List.sorted_insertionSort strLeRel _
  · exact tryLockAllAux_frame vars [] T T (fun _ => rfl) (by simp) hfail x

/-- Witness for C8: acquiring `A` against a table where every lock is busy
fails and leaves the table unchanged at `B`. -/
theorem claim8_witness :
    (tryLockAll [['A']] fun _ => true).2 ['B'] = true := by
  exact claim8_lock_protocol.2.2 [['A']] (fun _ => true) rfl ['B']

/-! ### C10: mutual exclusion of concurrently executing tasks -/

/-- Invariant of the scheduler model: every running body owns all its
variables' locks, and no worker appears twice in the running set. -/
def SchedInv (s : SchedState) : Prop :=
  (∀ e ∈ s.running, ∀ v ∈ e.2, s.owner v = some e.1) ∧
  s.running.Pairwise fun a b => a.1 ≠ b.1

theorem schedStep_inv {s s' : SchedState} (hs : SchedInv s) (h : SchedStep s s') :
    SchedInv s' := by
  obtain ⟨hown, hpw⟩ := hs
  cases h with
  | start w vars hw hfree =>
    constructor
    · intro e he v hv
      rcases List.mem_cons.mp he with he | he
      · subst he
        simp only []
        rw [if_pos hv]
      · have hold := hown e he v hv
        have hnv : v ∉ vars := by
          intro hvv
          rw [hfree v hvv] at hold
          exact Option.noConfusion hold
        simp only []
        rw [if_neg hnv]
        exact hold
    · exact List.Pairwise.cons (fun e he => (hw e he).symm) hpw
  | finish w vars hmem =>
    constructor
    · intro e he v hv
      have he' := List.mem_of_mem_filter he
      have hew : e.1 ≠ w := by
        have := List.of_mem_filter he
        simpa using this
      have hold := hown e he' v hv
      have hnv : v ∉ vars := by
        intro hvv
        have := hown (w, vars) hmem v hvv
        rw [hold] at this
        simp only [Option.some.injEq] at this
        exact hew this
      simp only []
      rw [if_neg hnv]
      exact hold
    · exact hpw.filter _

theorem schedReach_inv {s : SchedState} (h : SchedReach s) : SchedInv s := by
  induction h with
  | init => exact ⟨by simp, by simp⟩
  | step _ hstep ih => exact schedStep_inv ih hstep

theorem pairwise_worker_inj {l : List (Nat × List Str)}
    (h : l.Pairwise fun a b => a.1 ≠ b.1) :
    ∀ e1 ∈ l, ∀ e2 ∈ l, e1.1 = e2.1 → e1 = e2 := by
  induction l with
  | nil => intro e1 he1; simp at he1
  | cons a t ih =>
    intro e1 he1 e2 he2 hw
    obtain ⟨ha, hpt⟩ := List.pairwise_cons.mp h
    rcases List.mem_cons.mp he1 with he1 | he1
    · rcases List.mem_cons.mp he2 with he2 | he2
      · rw [he1, he2]
      · rw [he1] at hw ⊢
        exact absurd hw (ha e2 he2)
    · rcases List.mem_cons.mp he2 with he2 | he2
      · rw [he2] at hw ⊢
        exact absurd hw.symm (ha e1 he1)
      · exact ih hpt e1 he1 e2 he2 hw

/-- C10: in the interleaving model of `execute_task`'s lock discipline, any two
distinct task bodies executing concurrently have disjoint variable sets (two
tasks sharing a variable are mutually excluded), and two tasks with disjoint
variable sets can indeed be running concurrently (such a state is reachable). -/
theorem claim10_concurrent_disjointness :
    (∀ s : SchedState, SchedReach s → ∀ e1 ∈ s.running, ∀ e2 ∈ s.running,
      e1 ≠ e2 → ∀ v ∈ e1.2, v ∉ e2.2) ∧
    (∃ s : SchedState, SchedReach s ∧
      (0, [['A']]) ∈ s.running ∧ (1, [['B']]) ∈ s.running) := by
  constructor
  · intro s hs e1 he1 e2 he2 hne v hv1 hv2
    obtain ⟨hown, hpw⟩ := schedReach_inv hs
    have h1 := hown e1 he1 v hv1
    have h2 := hown e2 he2 v hv2
    rw [h1] at h2
    simp only [Option.some.injEq] at h2
    exact hne (pairwise_worker_inj hpw e1 he1 e2 he2 h2)
  · refine ⟨⟨fun x => if x ∈ [['B']] then some 1 else
        (if x ∈ [['A']] then some 0 else none),
      [(1, [['B']]), (0, [['A']])]⟩, ?_, by simp, by simp⟩
    have h0 : SchedReach ⟨fun _ => none, []⟩ := SchedReach.init
    have h1 : SchedReach ⟨fun x => if x ∈ [['A']] then some 0 else none,
        [(0, [['A']])]⟩ :=
      SchedReach.step h0 (SchedStep.start _ 0 [['A']] (by simp) (fun _ _ => rfl))
    exact SchedReach.step h1 (SchedStep.start _ 1 [['B']]
      (by simp) (fun v hv => by
        simp only [List.mem_singleton] at hv
        subst hv
        simp))

/-- Witness for C10: in the reachable state where worker 0 runs a task on `A`
and worker 1 runs a task on `B`, the disjointness theorem applies with
satisfiable hypotheses. -/
theorem claim10_witness : (['A'] : Str) ∉ [(['B'] : Str)] := by
  obtain ⟨s, hs, h0, h1⟩ := claim10_concurrent_disjointness.2
  exact claim10_concurrent_disjointness.1 s hs (0, [['A']]) h0 (1, [['B']]) h1
    (by decide) ['A'] (by decide)

/-! ### C5: clause evaluation semantics -/

theorem bindMap_parts (f : Str → Option Str) (c : Str) (id lit : Str) :
    ((matchDollarId c).bind fun p => (f p.2).map fun l => (p.1, l)) = some (id, lit) ↔
      ∃ r, matchDollarId c = some (id, r) ∧ f r = some lit := by
  cases hm : matchDollarId c with
  | none =>
    simp only [Option.none_bind]
    constructor
    · intro h; exact absurd h (by simp)
    · rintro ⟨r, hr, _⟩; exact absurd hr (by simp)
  | some p =>
    simp only [Option.some_bind]
    constructor
    · intro h
      obtain ⟨l, hl, heq⟩ := Option.map_eq_some'.mp h
      simp only [Prod.mk.injEq] at heq
      obtain ⟨h1, h2⟩ := heq
      refine ⟨p.2, ?_, ?_⟩
      · rw [← h1]
      · rw [hl, h2]
    · rintro ⟨r, hr, hf⟩
      injection hr with hr
      rw [hr]
      simp [hf]

theorem matchEqRhs_shape {r lit : Str} (h : matchEqRhs r = some lit) :
    ∃ r2, r.dropWhile isPyWs = '=' :: r2 := by
  unfold matchEqRhs at h
  split at h
  · rename_i r2 heq; exact ⟨r2, heq⟩
  · exact absurd h (by simp)

theorem matchIneqRhs_shape {r lit : Str} (h : matchIneqRhs r = some lit) :
    ∃ r2, r.dropWhile isPyWs = '!' :: '=' :: r2 := by
  unfold matchIneqRhs at h
  split at h
  · rename_i r2 heq; exact ⟨r2, heq⟩
  · exact absurd h (by simp)

theorem matchMemRhs_shape {r g : Str} (h : matchMemRhs r = some g) :
    ∃ r3, r.dropWhile isPyWs = 'i' :: 'n' :: r3 := by
  unfold matchMemRhs at h
  by_cases hw : headIsWs r = true
  · rw [if_pos hw] at h
    split at h
    · rename_i r3 heq; exact ⟨r3, heq⟩
    · exact absurd h (by simp)
  · rw [if_neg hw] at h; exact absurd h (by simp)

theorem matchNoMemRhs_shape {r g : Str} (h : matchNoMemRhs r = some g) :
    ∃ r3, r.dropWhile isPyWs = 'n' :: 'o' :: 't' :: r3 := by
  unfold matchNoMemRhs at h
  by_cases hw : headIsWs r = true
  · rw [if_pos hw] at h
    split at h
    · rename_i r3 heq; exact ⟨r3, heq⟩
    · exact absurd h (by simp)
  · rw [if_neg hw] at h; exact absurd h (by simp)

theorem matchEqRhs_none_head {r t : Str} {c : Char}
    (hd : r.dropWhile isPyWs = c :: t) (hc : ¬c = '=') : matchEqRhs r = none := by
  unfold matchEqRhs
  rw [hd]
  split
  · rename_i r2 heq; injection heq with h1 _; exact absurd h1 hc
  · rfl

theorem matchIneqRhs_none_head {r t : Str} {c : Char}
    (hd : r.dropWhile isPyWs = c :: t) (hc : ¬c = '!') : matchIneqRhs r = none := by
  unfold matchIneqRhs
  rw [hd]
  split
  · rename_i r2 heq; injection heq with h1 _; exact absurd h1 hc
  · rfl

theorem matchMemRhs_none_head {r t : Str} {c : Char}
    (hd : r.dropWhile isPyWs = c :: t) (hc : ¬c = 'i') : matchMemRhs r = none := by
  unfold matchMemRhs
  by_cases hw : headIsWs r = true
  · rw [if_pos hw, hd]
    split
    · rename_i r3 heq; injection heq with h1 _; exact absurd h1 hc
    · rfl
  · rw [if_neg hw]

/-- C5: for every clause matching one of the four patterns, satisfaction is
decided on the value bound to the clause's variable — the empty string when
the variable is unset — by equality with the quoted literal, inequality,
membership in the evaluated literal list, or non-membership, respectively;
and a guard is satisfied iff every one of its dependencies is satisfied. -/
theorem claim5_clause_evaluation :
    (∀ (st : PyState) (c id lit : Str), matchEquality c = some (id, lit) →
      isSatisfiedBy st c = some (decide (st.get id = lit))) ∧
    (∀ (st : PyState) (c id lit : Str), matchInequality c = some (id, lit) →
      isSatisfiedBy st c = some (decide (¬ st.get id = lit))) ∧
    (∀ (st : PyState) (c id grp : Str) (lits : List Str),
      matchMembership c = some (id, grp) → pyEvalStrList grp = some lits →
      isSatisfiedBy st c = some (decide (st.get id ∈ lits))) ∧
    (∀ (st : PyState) (c id grp : Str) (lits : List Str),
      matchNoMembership c = some (id, grp) → pyEvalStrList grp = some lits →
      isSatisfiedBy st c = some (decide (¬ st.get id ∈ lits))) ∧
    (∀ (st : PyState) (k : Str), lookupA k st.values = none → st.get k = []) ∧
    (∀ (st : PyState) (deps : List Str), guardIsSatisfiedBy st deps = true ↔
      ∀ d ∈ deps, truthy (isSatisfiedBy st d) = true) := by
  refine ⟨?_, ?_, ?_, ?_, ?_, ?_⟩
  · intro st c id lit h
    unfold isSatisfiedBy
    rw [h]
  · intro st c id lit h
    obtain ⟨r, hdid, hrhs⟩ := (bindMap_parts matchIneqRhs c id lit).mp h
    obtain ⟨r2, hd⟩ := matchIneqRhs_shape hrhs
    have heq : matchEquality c = none := by
      unfold matchEquality
      rw [hdid]
      simp only [Option.some_bind]
      rw [matchEqRhs_none_head hd (by decide)]
      rfl
    unfold isSatisfiedBy
    rw [heq, h]
  · intro st c id grp lits h hpe
    obtain ⟨r, hdid, hrhs⟩ := (bindMap_parts matchMemRhs c id grp).mp h
    obtain ⟨r3, hd⟩ := matchMemRhs_shape hrhs
    have hne : matchEquality c = none := by
      unfold matchEquality
      rw [hdid]
      simp only [Option.some_bind]
      rw [matchEqRhs_none_head hd (by decide)]
      rfl
    have hni : matchInequality c = none := by
      unfold matchInequality
      rw [hdid]
      simp only [Option.some_bind]
      rw [matchIneqRhs_none_head hd (by decide)]
      rfl
    unfold isSatisfiedBy
    rw [hne, hni, h]
    show Option.map (fun lits => decide (st.get id ∈ lits)) (pyEvalStrList grp) =
      some (decide (st.get id ∈ lits))
    rw [hpe]
    rfl
  · intro st c id grp lits h hpe
    obtain ⟨r, hdid, hrhs⟩ := (bindMap_parts matchNoMemRhs c id grp).mp h
    obtain ⟨r3, hd⟩ := matchNoMemRhs_shape hrhs
    have hne : matchEquality c = none := by
      unfold matchEquality
      rw [hdid]
      simp only [Option.some_bind]
      rw [matchEqRhs_none_head hd (by decide)]
      rfl
    have hni : matchInequality c = none := by
      unfold matchInequality
      rw [hdid]
      simp only [Option.some_bind]
      rw [matchIneqRhs_none_head hd (by decide)]
      rfl
    have hnm : matchMembership c = none := by
      unfold matchMembership
      rw [hdid]
      simp only [Option.some_bind]
      rw [matchMemRhs_none_head hd (by decide)]
      rfl
    unfold isSatisfiedBy
    rw [hne, hni, hnm, h]
    show Option.map (fun lits => decide (¬ st.get id ∈ lits)) (pyEvalStrList grp) =
      some (decide (¬ st.get id ∈ lits))
    rw [hpe]
    rfl
  · intro st k h
    rw [PyState.get, h]
    rfl
  · intro st deps
    exact List.all_eq_true

/-- Witness for C5: the state `V = "x"` satisfies the clause `$V = 'x'`. -/
theorem claim5_witness :
    isSatisfiedBy ⟨[(['V'], ['x'])], []⟩ ("$V = \'x\'".data) =
      some (decide (PyState.get ⟨[(['V'], ['x'])], []⟩ ['V'] = ['x'])) := by
  exact claim5_clause_evaluation.1 ⟨[(['V'], ['x'])], []⟩ ("$V = \'x\'".data)
    ['V'] ['x'] (by decide)

/-! ### C7: the language accepted by Dependency construction -/

theorem ws_not_idChar {c : Char} (h : isPyWs c = true) : isIdChar c = false := by
  rw [isPyWs] at h
  simp only [Bool.or_eq_true, decide_eq_true_eq] at h
  rcases h with ((((h | h) | h) | h) | h) | h <;> subst h <;> decide

theorem quote_not_ws {q : Char} (h : QuoteChar q) : isPyWs q = false := by
  rcases h with h | h <;> subst h <;> decide

theorem validId_all_idChar {id : Str} (h : isValidIdentifier id = true) :
    ∀ c ∈ id, isIdChar c = true := by
  intro c hc
  cases id with
  | nil => simp at hc
  | cons a rest =>
    rw [isValidIdentifier] at h
    rw [Bool.and_eq_true] at h
    obtain ⟨ha, hrest⟩ := h
    rcases List.mem_cons.mp hc with hc | hc
    · subst hc
      simp [isIdChar, isAlnumChar, ha]
    · have hc' : c ∈ rest.reverse := List.mem_reverse.mpr hc
      cases hrev : rest.reverse with
      | nil => rw [hrev] at hc'; simp at hc'
      | cons lastc midrev =>
        rw [hrev] at hrest hc'
        simp only [Bool.and_eq_true] at hrest
        obtain ⟨⟨hlast, _⟩, hmid⟩ := hrest
        rcases List.mem_cons.mp hc' with hc' | hc'
        · subst hc'
          simp [isIdChar, hlast]
        · exact List.all_eq_true.mp hmid c hc'

theorem headIsWs_true {r : Str} :
    headIsWs r = true ↔ ∃ a s, r = a :: s ∧ isPyWs a = true := by
  cases r with
  | nil => simp [headIsWs]
  | cons a s =>
    simp only [headIsWs]
    constructor
    · intro h; exact ⟨a, s, rfl, h⟩
    · rintro ⟨a', s', heq, h⟩
      injection heq with h1 _
      rw [h1]; exact h

theorem matchDollarId_iff {s id r : Str} :
    matchDollarId s = some (id, r) ↔
      isValidIdentifier id = true ∧ s = '$' :: (id ++ r) ∧
        (∀ c, r.head? = some c → isIdChar c = false) := by
  constructor
  · intro h
    unfold matchDollarId at h
    split at h
    · rename_i rest
      split at h
      · rename_i hv
        simp only [Option.some.injEq, Prod.mk.injEq] at h
        obtain ⟨h1, h2⟩ := h
        subst h1; subst h2
        refine ⟨hv, ?_, fun c hc => head_dropWhile_false hc⟩
        rw [List.takeWhile_append_dropWhile]
      · exact absurd h (by simp)
    · exact absurd h (by simp)
  · rintro ⟨hid, rfl, hr⟩
    have hall := validId_all_idChar hid
    have htw : (id ++ r).takeWhile isIdChar = id := by
      rw [takeWhile_append_all r hall]
      cases r with
      | nil => simp
      | cons c t =>
        rw [List.takeWhile_cons, hr c rfl]
        simp
    have hdw : (id ++ r).dropWhile isIdChar = r := by
      rw [dropWhile_append_all r hall]
      cases r with
      | nil => rfl
      | cons c t =>
        rw [List.dropWhile_cons, hr c rfl]
        simp
    show (if isValidIdentifier ((id ++ r).takeWhile isIdChar) = true then
        some ((id ++ r).takeWhile isIdChar, (id ++ r).dropWhile isIdChar)
      else none) = some (id, r)
    rw [htw, hdw, if_pos hid]

theorem matchQuoted_iff {u lit : Str} :
    matchQuoted u = some lit ↔
      ∃ q, QuoteChar q ∧ isValidValue lit = true ∧ u = q :: (lit ++ [q]) := by
  constructor
  · intro h
    unfold matchQuoted at h
    split at h
    · exact absurd h (by simp)
    · rename_i c rest
      by_cases hq : c = '\'' ∨ c = '"'
      · rw [if_pos hq] at h
        split at h
        · rename_i c2 heq2
          by_cases hc : c2 = c ∧ isValidValue rest.dropLast = true
          · rw [if_pos hc] at h
            simp only [Option.some.injEq] at h
            obtain ⟨hc2, hvv⟩ := hc
            refine ⟨c, hq, h ▸ hvv, ?_⟩
            have := eq_dropLast_append_getLast heq2
            rw [this, h, hc2]
          · rw [if_neg hc] at h
            exact absurd h (by simp)
        · exact absurd h (by simp)
      · rw [if_neg hq] at h
        exact absurd h (by simp)
  · rintro ⟨q, hq, hv, rfl⟩
    show (if q = '\'' ∨ q = '"' then
        match (lit ++ [q]).getLast? with
        | some c2 =>
          if c2 = q ∧ isValidValue (lit ++ [q]).dropLast = true then
            some (lit ++ [q]).dropLast
          else none
        | none => none
      else none) = some lit
    rw [if_pos (show q = '\'' ∨ q = '"' from hq), List.getLast?_concat]
    show (if q = q ∧ isValidValue (lit ++ [q]).dropLast = true then
        some (lit ++ [q]).dropLast else none) = some lit
    rw [List.dropLast_concat, if_pos ⟨rfl, hv⟩]

theorem matchBracket_iff {u g : Str} :
    matchBracket u = some g ↔
      ∃ inner, InnerOk inner ∧ u = '[' :: (inner ++ [']']) ∧ g = u := by
  constructor
  · intro h
    unfold matchBracket at h
    split at h
    · rename_i rest
      split at h
      · rename_i heq2
        by_cases hc : rest.dropLast ≠ [] ∧ rest.dropLast.all (· ≠ '\n') = true
        · rw [if_pos hc] at h
          simp only [Option.some.injEq] at h
          obtain ⟨hne, hall⟩ := hc
          refine ⟨rest.dropLast, ⟨hne, ?_⟩, ?_, h.symm⟩
          · intro c hcm
            have := List.all_eq_true.mp hall c hcm
            exact of_decide_eq_true this
          · rw [← eq_dropLast_append_getLast heq2]
        · rw [if_neg hc] at h
          exact absurd h (by simp)
      · exact absurd h (by simp)
    · exact absurd h (by simp)
  · rintro ⟨inner, ⟨hne, hnl⟩, rfl, rfl⟩
    show (match (inner ++ [']']).getLast? with
      | some ']' =>
        if (inner ++ [']']).dropLast ≠ [] ∧
            (inner ++ [']']).dropLast.all (· ≠ '\n') = true then
          some ('[' :: (inner ++ [']']))
        else none
      | _ => none) = some ('[' :: (inner ++ [']']))
    rw [List.getLast?_concat]
    show (if (inner ++ [']']).dropLast ≠ [] ∧
        (inner ++ [']']).dropLast.all (· ≠ '\n') = true then
        some ('[' :: (inner ++ [']']))
      else none) = some ('[' :: (inner ++ [']']))
    rw [List.dropLast_concat]
    rw [if_pos ⟨hne, List.all_eq_true.mpr fun c hc => decide_eq_true (hnl c hc)⟩]

theorem wsRun_takeWhile (r : Str) : WsRun (r.takeWhile isPyWs) :=
  fun _ hc => List.mem_takeWhile_imp hc

theorem takeWhile_ws_ne_nil {r : Str} (h : headIsWs r = true) :
    r.takeWhile isPyWs ≠ [] := by
  obtain ⟨a, s, rfl, ha⟩ := headIsWs_true.mp h
  rw [List.takeWhile_cons, if_pos ha]
  simp

theorem headIsWs_append {w : Str} (hw : WsRun w) (hne : w ≠ []) (x : Str) :
    headIsWs (w ++ x) = true := by
  cases w with
  | nil => exact absurd rfl hne
  | cons a t =>
    rw [List.cons_append]
    exact hw a (by simp)

theorem matchEqRhs_iff {r lit : Str} :
    matchEqRhs r = some lit ↔
      ∃ w1 w2 q, WsRun w1 ∧ WsRun w2 ∧ QuoteChar q ∧ isValidValue lit = true ∧
        r = w1 ++ '=' :: (w2 ++ q :: (lit ++ [q])) := by
  constructor
  · intro h
    unfold matchEqRhs at h
    split at h
    · rename_i r2 heq
      obtain ⟨q, hq, hv, hu⟩ := matchQuoted_iff.mp h
      refine ⟨r.takeWhile isPyWs, r2.takeWhile isPyWs, q,
        wsRun_takeWhile r, wsRun_takeWhile r2, hq, hv, ?_⟩
      calc r = r.takeWhile isPyWs ++ r.dropWhile isPyWs :=
            (List.takeWhile_append_dropWhile _ _).symm
        _ = r.takeWhile isPyWs ++ ('=' :: r2) := by rw [heq]
        _ = r.takeWhile isPyWs ++
            ('=' :: (r2.takeWhile isPyWs ++ r2.dropWhile isPyWs)) := by
            rw [List.takeWhile_append_dropWhile]
        _ = r.takeWhile isPyWs ++
            ('=' :: (r2.takeWhile isPyWs ++ (q :: (lit ++ [q])))) := by rw [hu]
    · exact absurd h (by simp)
  · rintro ⟨w1, w2, q, hw1, hw2, hq, hv, rfl⟩
    have hd : (w1 ++ '=' :: (w2 ++ q :: (lit ++ [q]))).dropWhile isPyWs =
        '=' :: (w2 ++ q :: (lit ++ [q])) := by
      rw [dropWhile_append_all _ hw1, List.dropWhile_cons,
        if_neg (by decide : ¬isPyWs '=' = true)]
    unfold matchEqRhs
    rw [hd]
    show matchQuoted ((w2 ++ q :: (lit ++ [q])).dropWhile isPyWs) = some lit
    rw [dropWhile_append_all _ hw2, List.dropWhile_cons,
      if_neg (by simp [quote_not_ws hq] : ¬isPyWs q = true)]
    exact matchQuoted_iff.mpr ⟨q, hq, hv, rfl⟩

theorem matchIneqRhs_iff {r lit : Str} :
    matchIneqRhs r = some lit ↔
      ∃ w1 w2 q, WsRun w1 ∧ WsRun w2 ∧ QuoteChar q ∧ isValidValue lit = true ∧
        r = w1 ++ '!' :: '=' :: (w2 ++ q :: (lit ++ [q])) := by
  constructor
  · intro h
    unfold matchIneqRhs at h
    split at h
    · rename_i r2 heq
      obtain ⟨q, hq, hv, hu⟩ := matchQuoted_iff.mp h
      refine ⟨r.takeWhile isPyWs, r2.takeWhile isPyWs, q,
        wsRun_takeWhile r, wsRun_takeWhile r2, hq, hv, ?_⟩
      calc r = r.takeWhile isPyWs ++ r.dropWhile isPyWs :=
            (List.takeWhile_append_dropWhile _ _).symm
        _ = r.takeWhile isPyWs ++ ('!' :: '=' :: r2) := by rw [heq]
        _ = r.takeWhile isPyWs ++
            ('!' :: '=' :: (r2.takeWhile isPyWs ++ r2.dropWhile isPyWs)) := by
            rw [List.takeWhile_append_dropWhile]
        _ = r.takeWhile isPyWs ++
            ('!' :: '=' :: (r2.takeWhile isPyWs ++ (q :: (lit ++ [q])))) := by rw [hu]
    · exact absurd h (by simp)
  · rintro ⟨w1, w2, q, hw1, hw2, hq, hv, rfl⟩
    have hd : (w1 ++ '!' :: '=' :: (w2 ++ q :: (lit ++ [q]))).dropWhile isPyWs =
        '!' :: '=' :: (w2 ++ q :: (lit ++ [q])) := by
      rw [dropWhile_append_all _ hw1, List.dropWhile_cons,
        if_neg (by decide : ¬isPyWs '!' = true)]
    unfold matchIneqRhs
    rw [hd]
    show matchQuoted ((w2 ++ q :: (lit ++ [q])).dropWhile isPyWs) = some lit
    rw [dropWhile_append_all _ hw2, List.dropWhile_cons,
      if_neg (by simp [quote_not_ws hq] : ¬isPyWs q = true)]
    exact matchQuoted_iff.mpr ⟨q, hq, hv, rfl⟩

theorem matchMemRhs_iff {r g : Str} :
    matchMemRhs r = some g ↔
      ∃ w1 w2 inner, WsRun w1 ∧ w1 ≠ [] ∧ WsRun w2 ∧ w2 ≠ [] ∧ InnerOk inner ∧
        r = w1 ++ 'i' :: 'n' :: (w2 ++ '[' :: (inner ++ [']'])) ∧
        g = '[' :: (inner ++ [']']) := by
  constructor
  · intro h
    unfold matchMemRhs at h
    by_cases hw : headIsWs r = true
    · rw [if_pos hw] at h
      split at h
      · rename_i r3 heq
        by_cases hw3 : headIsWs r3 = true
        · rw [if_pos hw3] at h
          obtain ⟨inner, hin, hu, hg⟩ := matchBracket_iff.mp h
          refine ⟨r.takeWhile isPyWs, r3.takeWhile isPyWs, inner,
            wsRun_takeWhile r, takeWhile_ws_ne_nil hw,
            wsRun_takeWhile r3, takeWhile_ws_ne_nil hw3, hin, ?_, ?_⟩
          · calc r = r.takeWhile isPyWs ++ r.dropWhile isPyWs :=
                (List.takeWhile_append_dropWhile _ _).symm
              _ = r.takeWhile isPyWs ++ ('i' :: 'n' :: r3) := by rw [heq]
              _ = r.takeWhile isPyWs ++
                  ('i' :: 'n' :: (r3.takeWhile isPyWs ++ r3.dropWhile isPyWs)) := by
                  rw [List.takeWhile_append_dropWhile]
              _ = r.takeWhile isPyWs ++
                  ('i' :: 'n' :: (r3.takeWhile isPyWs ++ ('[' :: (inner ++ [']'])))) := by
                  rw [hu]
          · rw [hg, hu]
        · rw [if_neg hw3] at h
          exact absurd h (by simp)
      · exact absurd h (by simp)
    · rw [if_neg hw] at h
      exact absurd h (by simp)
  · rintro ⟨w1, w2, inner, hw1, hne1, hw2, hne2, hin, rfl, rfl⟩
    have hd : (w1 ++ 'i' :: 'n' :: (w2 ++ '[' :: (inner ++ [']']))).dropWhile isPyWs =
        'i' :: 'n' :: (w2 ++ '[' :: (inner ++ [']'])) := by
      rw [dropWhile_append_all _ hw1, List.dropWhile_cons,
        if_neg (by decide : ¬isPyWs 'i' = true)]
    unfold matchMemRhs
    rw [if_pos (headIsWs_append hw1 hne1 _), hd]
    show (if headIsWs (w2 ++ '[' :: (inner ++ [']'])) = true then
        matchBracket ((w2 ++ '[' :: (inner ++ [']'])).dropWhile isPyWs)
      else none) = some ('[' :: (inner ++ [']']))
    rw [if_pos (headIsWs_append hw2 hne2 _)]
    rw [dropWhile_append_all _ hw2, List.dropWhile_cons,
      if_neg (by decide : ¬isPyWs '[' = true)]
    exact matchBracket_iff.mpr ⟨inner, hin, rfl, rfl⟩

theorem matchNoMemRhs_iff {r g : Str} :
    matchNoMemRhs r = some g ↔
      ∃ w1 w2 w3 inner, WsRun w1 ∧ w1 ≠ [] ∧ WsRun w2 ∧ w2 ≠ [] ∧
        WsRun w3 ∧ w3 ≠ [] ∧ InnerOk inner ∧
        r = w1 ++ 'n' :: 'o' :: 't' ::
          (w2 ++ 'i' :: 'n' :: (w3 ++ '[' :: (inner ++ [']']))) ∧
        g = '[' :: (inner ++ [']']) := by
  constructor
  · intro h
    unfold matchNoMemRhs at h
    by_cases hw : headIsWs r = true
    · rw [if_pos hw] at h
      split at h
      · rename_i r3 heq
        by_cases hw3 : headIsWs r3 = true
        · rw [if_pos hw3] at h
          split at h
          · rename_i r4 heq4
            by_cases hw4 : headIsWs r4 = true
            · rw [if_pos hw4] at h
              obtain ⟨inner, hin, hu, hg⟩ := matchBracket_iff.mp h
              refine ⟨r.takeWhile isPyWs, r3.takeWhile isPyWs, r4.takeWhile isPyWs,
                inner, wsRun_takeWhile r, takeWhile_ws_ne_nil hw,
                wsRun_takeWhile r3, takeWhile_ws_ne_nil hw3,
                wsRun_takeWhile r4, takeWhile_ws_ne_nil hw4, hin, ?_, ?_⟩
              · calc r = r.takeWhile isPyWs ++ r.dropWhile isPyWs :=
                    (List.takeWhile_append_dropWhile _ _).symm
                  _ = r.takeWhile isPyWs ++ ('n' :: 'o' :: 't' :: r3) := by rw [heq]
                  _ = r.takeWhile isPyWs ++ ('n' :: 'o' :: 't' ::
                      (r3.takeWhile isPyWs ++ r3.dropWhile isPyWs)) := by
                      rw [List.takeWhile_append_dropWhile]
                  _ = r.takeWhile isPyWs ++ ('n' :: 'o' :: 't' ::
                      (r3.takeWhile isPyWs ++ ('i' :: 'n' :: r4))) := by rw [heq4]
                  _ = r.takeWhile isPyWs ++ ('n' :: 'o' :: 't' ::
                      (r3.takeWhile isPyWs ++ ('i' :: 'n' ::
                        (r4.takeWhile isPyWs ++ r4.dropWhile isPyWs)))) := by
                      rw [List.takeWhile_append_dropWhile]
                  _ = r.takeWhile isPyWs ++ ('n' :: 'o' :: 't' ::
                      (r3.takeWhile isPyWs ++ ('i' :: 'n' ::
                        (r4.takeWhile isPyWs ++ ('[' :: (inner ++ [']'])))))) := by
                      rw [hu]
              · rw [hg, hu]
            · rw [if_neg hw4] at h
              exact absurd h (by simp)
          · exact absurd h (by simp)
        · rw [if_neg hw3] at h
          exact absurd h (by simp)
      · exact absurd h (by simp)
    · rw [if_neg hw] at h
      exact absurd h (by simp)
  · rintro ⟨w1, w2, w3, inner, hw1, hne1, hw2, hne2, hw3, hne3, hin, rfl, rfl⟩
    have hd : (w1 ++ 'n' :: 'o' :: 't' ::
        (w2 ++ 'i' :: 'n' :: (w3 ++ '[' :: (inner ++ [']'])))).dropWhile isPyWs =
        'n' :: 'o' :: 't' :: (w2 ++ 'i' :: 'n' :: (w3 ++ '[' :: (inner ++ [']']))) := by
      rw [dropWhile_append_all _ hw1, List.dropWhile_cons,
        if_neg (by decide : ¬isPyWs 'n' = true)]
    unfold matchNoMemRhs
    rw [if_pos (headIsWs_append hw1 hne1 _), hd]
    show (if headIsWs (w2 ++ 'i' :: 'n' :: (w3 ++ '[' :: (inner ++ [']']))) = true then
        (match (w2 ++ 'i' :: 'n' :: (w3 ++ '[' :: (inner ++ [']']))).dropWhile isPyWs with
          | 'i' :: 'n' :: r4 =>
            if headIsWs r4 = true then matchBracket (r4.dropWhile isPyWs) else none
          | _ => none)
      else none) = some ('[' :: (inner ++ [']']))
    rw [if_pos (headIsWs_append hw2 hne2 _)]
    rw [show (w2 ++ 'i' :: 'n' :: (w3 ++ '[' :: (inner ++ [']']))).dropWhile isPyWs =
        'i' :: 'n' :: (w3 ++ '[' :: (inner ++ [']'])) from by
      rw [dropWhile_append_all _ hw2, List.dropWhile_cons,
        if_neg (by decide : ¬isPyWs 'i' = true)]]
    show (if headIsWs (w3 ++ '[' :: (inner ++ [']']))= true then
        matchBracket ((w3 ++ '[' :: (inner ++ [']'])).dropWhile isPyWs)
      else none) = some ('[' :: (inner ++ [']']))
    rw [if_pos (headIsWs_append hw3 hne3 _)]
    rw [dropWhile_append_all _ hw3, List.dropWhile_cons,
      if_neg (by decide : ¬isPyWs '[' = true)]
    exact matchBracket_iff.mpr ⟨inner, hin, rfl, rfl⟩

theorem head_not_id_append {w1 : Str} (hw1 : WsRun w1) {c : Char} (x : Str)
    (hc : w1 = [] → isIdChar c = false) :
    ∀ ch, (w1 ++ c :: x).head? = some ch → isIdChar ch = false := by
  intro ch h
  cases w1 with
  | nil =>
    simp only [List.nil_append, List.head?_cons, Option.some.injEq] at h
    rw [← h]; exact hc rfl
  | cons a t =>
    simp only [List.cons_append, List.head?_cons, Option.some.injEq] at h
    rw [← h]; exact ws_not_idChar (hw1 a (by simp))

theorem matchEquality_isSome_iff {s : Str} :
    (matchEquality s).isSome = true ↔ EqualityShape s := by
  rw [Option.isSome_iff_exists]
  constructor
  · rintro ⟨⟨id, lit⟩, h⟩
    unfold matchEquality at h
    obtain ⟨r, hdid, hrhs⟩ := (bindMap_parts matchEqRhs s id lit).mp h
    obtain ⟨hid, hs, _⟩ := matchDollarId_iff.mp hdid
    obtain ⟨w1, w2, q, hw1, hw2, hq, hv, hr⟩ := matchEqRhs_iff.mp hrhs
    exact ⟨id, w1, w2, q, lit, hid, hw1, hw2, hq, hv,
      by rw [hs, hr, List.append_assoc]⟩
  · rintro ⟨id, w1, w2, q, lit, hid, hw1, hw2, hq, hv, rfl⟩
    refine ⟨(id, lit), ?_⟩
    unfold matchEquality
    apply (bindMap_parts matchEqRhs _ id lit).mpr
    refine ⟨w1 ++ '=' :: (w2 ++ q :: (lit ++ [q])), ?_, ?_⟩
    · exact matchDollarId_iff.mpr
        ⟨hid, by rw [List.append_assoc],
          head_not_id_append hw1 _ fun _ => by decide⟩
    · exact matchEqRhs_iff.mpr ⟨w1, w2, q, hw1, hw2, hq, hv, rfl⟩

theorem matchInequality_isSome_iff {s : Str} :
    (matchInequality s).isSome = true ↔ InequalityShape s := by
  rw [Option.isSome_iff_exists]
  constructor
  · rintro ⟨⟨id, lit⟩, h⟩
    unfold matchInequality at h
    obtain ⟨r, hdid, hrhs⟩ := (bindMap_parts matchIneqRhs s id lit).mp h
    obtain ⟨hid, hs, _⟩ := matchDollarId_iff.mp hdid
    obtain ⟨w1, w2, q, hw1, hw2, hq, hv, hr⟩ := matchIneqRhs_iff.mp hrhs
    exact ⟨id, w1, w2, q, lit, hid, hw1, hw2, hq, hv,
      by rw [hs, hr, List.append_assoc]⟩
  · rintro ⟨id, w1, w2, q, lit, hid, hw1, hw2, hq, hv, rfl⟩
    refine ⟨(id, lit), ?_⟩
    unfold matchInequality
    apply (bindMap_parts matchIneqRhs _ id lit).mpr
    refine ⟨w1 ++ '!' :: '=' :: (w2 ++ q :: (lit ++ [q])), ?_, ?_⟩
    · exact matchDollarId_iff.mpr
        ⟨hid, by rw [List.append_assoc],
          head_not_id_append hw1 _ fun _ => by decide⟩
    · exact matchIneqRhs_iff.mpr ⟨w1, w2, q, hw1, hw2, hq, hv, rfl⟩

theorem matchMembership_isSome_iff {s : Str} :
    (matchMembership s).isSome = true ↔ MembershipShape s := by
  rw [Option.isSome_iff_exists]
  constructor
  · rintro ⟨⟨id, g⟩, h⟩
    unfold matchMembership at h
    obtain ⟨r, hdid, hrhs⟩ := (bindMap_parts matchMemRhs s id g).mp h
    obtain ⟨hid, hs, _⟩ := matchDollarId_iff.mp hdid
    obtain ⟨w1, w2, inner, hw1, hne1, hw2, hne2, hin, hr, _⟩ := matchMemRhs_iff.mp hrhs
    exact ⟨id, w1, w2, inner, hid, hw1, hne1, hw2, hne2, hin,
      by rw [hs, hr, List.append_assoc]⟩
  · rintro ⟨id, w1, w2, inner, hid, hw1, hne1, hw2, hne2, hin, rfl⟩
    refine ⟨(id, '[' :: (inner ++ [']'])), ?_⟩
    unfold matchMembership
    apply (bindMap_parts matchMemRhs _ id _).mpr
    refine ⟨w1 ++ 'i' :: 'n' :: (w2 ++ '[' :: (inner ++ [']'])), ?_, ?_⟩
    · exact matchDollarId_iff.mpr
        ⟨hid, by rw [List.append_assoc],
          head_not_id_append hw1 _ fun hemp => absurd hemp hne1⟩
    · exact matchMemRhs_iff.mpr ⟨w1, w2, inner, hw1, hne1, hw2, hne2, hin, rfl, rfl⟩

theorem matchNoMembership_isSome_iff {s : Str} :
    (matchNoMembership s).isSome = true ↔ NoMembershipShape s := by
  rw [Option.isSome_iff_exists]
  constructor
  · rintro ⟨⟨id, g⟩, h⟩
    unfold matchNoMembership at h
    obtain ⟨r, hdid, hrhs⟩ := (bindMap_parts matchNoMemRhs s id g).mp h
    obtain ⟨hid, hs, _⟩ := matchDollarId_iff.mp hdid
    obtain ⟨w1, w2, w3, inner, hw1, hne1, hw2, hne2, hw3, hne3, hin, hr, _⟩ :=
      matchNoMemRhs_iff.mp hrhs
    exact ⟨id, w1, w2, w3, inner, hid, hw1, hne1, hw2, hne2, hw3, hne3, hin,
      by rw [hs, hr, List.append_assoc]⟩
  · rintro ⟨id, w1, w2, w3, inner, hid, hw1, hne1, hw2, hne2, hw3, hne3, hin, rfl⟩
    refine ⟨(id, '[' :: (inner ++ [']'])), ?_⟩
    unfold matchNoMembership
    apply (bindMap_parts matchNoMemRhs _ id _).mpr
    refine ⟨w1 ++ 'n' :: 'o' :: 't' ::
      (w2 ++ 'i' :: 'n' :: (w3 ++ '[' :: (inner ++ [']']))), ?_, ?_⟩
    · exact matchDollarId_iff.mpr
        ⟨hid, by rw [List.append_assoc],
          head_not_id_append hw1 _ fun hemp => absurd hemp hne1⟩
    · exact matchNoMemRhs_iff.mpr
        ⟨w1, w2, w3, inner, hw1, hne1, hw2, hne2, hw3, hne3, hin, rfl, rfl⟩

/-- Counterexample for C7: the clause `$V in [abc]` — whose bracketed list has
an unquoted, comma-free element — is accepted by Dependency construction,
although evaluating its right-hand side as a Python literal list fails (the
claim says any such clause raises `SyntaxError`). -/
theorem claim7_counterexample :
    dependencyInit ("$V in [abc]".data) = .ok ("$V in [abc]".data) ∧
    pyEvalStrList ("[abc]".data) = none := ⟨rfl, rfl⟩

/-- C7 (amended): Dependency construction accepts exactly the clauses of the
four forms; for the equality and inequality forms the right-hand literal must
be enclosed in matching single or double quotes, but for the membership forms
the bracketed right-hand side is only required to be a nonempty newline-free
character sequence — its elements are not checked to be quoted or
comma-separated — and any other clause string raises `SyntaxError` with the
constant message `Invalid dependency clause.`, the same for every rejected
clause: the offending clause is not named in it. -/
theorem claim7_amended_clause_language (s : Str) :
    (dependencyInit s = .ok s ↔
      (EqualityShape s ∨ InequalityShape s ∨ MembershipShape s ∨
        NoMembershipShape s)) ∧
    (¬(EqualityShape s ∨ InequalityShape s ∨ MembershipShape s ∨
        NoMembershipShape s) →
      dependencyInit s = .error .syntaxError ∧
        validateClauseExc s = .error invalidClauseMsg) := by
  have hiff : ((matchEquality s).isSome || (matchInequality s).isSome
      || (matchMembership s).isSome || (matchNoMembership s).isSome) = true ↔
      (EqualityShape s ∨ InequalityShape s ∨ MembershipShape s ∨
        NoMembershipShape s) := by
    simp only [Bool.or_eq_true]
    constructor
    · rintro (((h | h) | h) | h)
      · exact Or.inl (matchEquality_isSome_iff.mp h)
      · exact Or.inr (Or.inl (matchInequality_isSome_iff.mp h))
      · exact Or.inr (Or.inr (Or.inl (matchMembership_isSome_iff.mp h)))
      · exact Or.inr (Or.inr (Or.inr (matchNoMembership_isSome_iff.mp h)))
    · rintro (h | h | h | h)
      · exact Or.inl (Or.inl (Or.inl (matchEquality_isSome_iff.mpr h)))
      · exact Or.inl (Or.inl (Or.inr (matchInequality_isSome_iff.mpr h)))
      · exact Or.inl (Or.inr (matchMembership_isSome_iff.mpr h))
      · exact Or.inr (matchNoMembership_isSome_iff.mpr h)
  constructor
  · constructor
    · intro h
      by_cases hc : ((matchEquality s).isSome || (matchInequality s).isSome
          || (matchMembership s).isSome || (matchNoMembership s).isSome) = true
      · exact hiff.mp hc
      · unfold dependencyInit at h
        rw [if_neg hc] at h
        exact absurd h (by simp)
    · intro h
      unfold dependencyInit
      rw [if_pos (hiff.mpr h)]
  · intro h
    constructor
    · unfold dependencyInit
      rw [if_neg fun hc => h (hiff.mp hc)]
    · unfold validateClauseExc
      rw [if_neg fun hc => h (hiff.mp hc)]

/-- Witness for C7 (amended): `$V = "x"` is an equality-shaped clause and is
accepted, while the shapeless clause `foo` is rejected with the constant
message. -/
theorem claim7_witness :
    dependencyInit ("$V = \"x\"".data) = .ok ("$V = \"x\"".data) ∧
    validateClauseExc ("foo".data) = .error invalidClauseMsg := by
  constructor
  · refine (claim7_amended_clause_language _).1.mpr (Or.inl ?_)
    refine ⟨['V'], [' '], [' '], '"', ['x'], by decide, ?_, ?_, Or.inr rfl,
      by decide, by decide⟩
    · intro c hc
      simp only [List.mem_singleton] at hc
      subst hc; rfl
    · intro c hc
      simp only [List.mem_singleton] at hc
      subst hc; rfl
  · refine ((claim7_amended_clause_language _).2 ?_).2
    rintro (h | h | h | h)
    · exact absurd (matchEquality_isSome_iff.mpr h) (by decide)
    · exact absurd (matchInequality_isSome_iff.mpr h) (by decide)
    · exact absurd (matchMembership_isSome_iff.mpr h) (by decide)
    · exact absurd (matchNoMembership_isSome_iff.mpr h) (by decide)

end WedMake
